import Mathlib

/-!
Verification of the dott-ng target-side example functions and of the
host-side call/marshal/synchronization engine described in the design
document.  Target C functions (from the example firmware sources) are
embedded as Lean functions on `Nat` with explicit `% 2^32` wherever the
C code computes in `uint32_t`, and on `Int` where the C code uses `int`.
Host-side components whose implementation is not part of the source tree
(value marshaler, on-target allocator, call engine, rendezvous
controller) are modelled from the design document and verified against
its stated properties.
-/

namespace Dott

/-- Word modulus of the 32-bit target (Cortex-M0, little-endian). -/
def U32 : Nat := 2 ^ 32

/-- C function `example_Addition` (examples target source):
`uint32_t example_Addition(uint32_t a, uint32_t b) \x7b return a + b; \x7d`,
with `uint32_t` addition wrapping modulo `2^32`. -/
def example_Addition (a b : Nat) : Nat := (a + b) % U32

/-- C function `example_ManyArgs` (examples target source):
`return a + b + c + d + e + f;` on `uint32_t` operands; each intermediate
sum is a `uint32_t`, hence reduced modulo `2^32`. -/
def example_ManyArgs (a b c d e f : Nat) : Nat :=
  (((((a + b) % U32 + c) % U32 + d) % U32 + e) % U32 + f) % U32

/-- C struct `my_add_t` (examples target source): byte-sized padding
members `paddA`, `paddB`, `paddC` interleaved with `uint32_t` members
`a`, `b`, `sum`. -/
structure my_add_t where
  paddA : Nat
  a : Nat
  paddB : Nat
  b : Nat
  paddC : Nat
  sum : Nat
  deriving DecidableEq, Repr

/-- C function `example_AdditionStruct` (examples target source): operates
on its by-value copy `ms`, stores `ms.a + ms.b` into `ms.sum` and returns
it.  The returned pair is (return value, final state of the by-value
copy). -/
def example_AdditionStruct (ms : my_add_t) : Nat × my_add_t :=
  let ms2 := { ms with sum := (ms.a + ms.b) % U32 }
  (ms2.sum, ms2)

/-- C function `example_AdditionPtr` (examples target source):
`return *a + *b;` where `a`, `b` are `uint32_t*`.  Target memory is
modelled as a map from word addresses to stored `uint32_t` values. -/
def example_AdditionPtr (mem : Nat → Nat) (a b : Nat) : Nat :=
  (mem a + mem b) % U32

/-- C function `example_GetA` (examples target source): returns 42. -/
def example_GetA : Nat := 42

/-- C function `example_FunctionPointers` (examples target source):
`a = 10; b = 20; if (func_a != NULL) a = func_a(); return a + b;`.
The global function pointer `func_a` is passed explicitly as an
`Option`-valued state (`none` models `NULL`). -/
def example_FunctionPointers (func_a : Option (Unit → Nat)) : Nat :=
  let a : Nat := 10
  let b : Nat := 20
  let a2 : Nat :=
    match func_a with
    | some f => f () % U32
    | none => a
  (a2 + b) % U32

/-- C function `reg_func_ptr_a` (examples target source): sets the global
function pointer `func_a` to `&example_GetA`. -/
def reg_func_ptr_a (_ : Option (Unit → Nat)) : Option (Unit → Nat) :=
  some fun _ => example_GetA

/-- C function `reg_func_ptr_null` (examples target source): sets the
global function pointer `func_a` to `NULL`. -/
def reg_func_ptr_null (_ : Option (Unit → Nat)) : Option (Unit → Nat) :=
  none

/-- Errors raised by the on-target allocator (design document §4.4 and
§7). -/
inductive AllocError where
  | outOfMemory
  | unsupportedOperation
  | invalidAlignment
  deriving DecidableEq, Repr

/-- Modelled from the spec: state of the PRESTACK on-target allocator
(the host-side allocator implementation is not part of the source tree).
A fixed-size region with a configured byte budget is claimed once; the
`cursor` counts the bytes consumed from the start of the region.
Allocations bump-allocate and are never individually freed. -/
structure Prestack where
  budget : Nat
  cursor : Nat
  deriving DecidableEq, Repr

/-- Round `n` up to the next multiple of the alignment `al`
(an alignment of 0 is treated as no alignment constraint). -/
def alignUp (n al : Nat) : Nat :=
  if al = 0 then n else (n + al - 1) / al * al

/-- Modelled from the spec: PRESTACK `alloc(size)` with the requested
type's natural alignment.  The cursor is aligned up, the request is
served if it fits in the remaining budget, and otherwise fails with
`OutOfMemoryError`; nothing is ever freed or compacted. -/
def allocPrestack (st : Prestack) (size al : Nat) :
    Except AllocError (Nat × Prestack) :=
  if alignUp st.cursor al + size ≤ st.budget then
    .ok (alignUp st.cursor al, { st with cursor := alignUp st.cursor al + size })
  else
    .error .outOfMemory

/-- Run a sequence of further `(size, alignment)` allocation requests
against a PRESTACK allocator; failed requests leave the state
unchanged (no compaction, no reuse). -/
def allocRun (st : Prestack) : List (Nat × Nat) → Prestack
  | [] => st
  | (sz, al) :: rest =>
    match allocPrestack st sz al with
    | .ok (_, st2) => allocRun st2 rest
    | .error _ => allocRun st rest

/-- Modelled from the spec: state of the rendezvous controller for one
persistent label (the host-side controller implementation is not part of
the source tree).  The free-running target passes the label at arrivals
0, 1, 2, …; `nextHit` is the index of the first arrival not yet observed
by the host. -/
structure LabelCtl where
  nextHit : Nat
  deriving DecidableEq, Repr

/-- Modelled from the spec: `wait_for_label` on a persistent label blocks
until the target's next arrival at the label, reports that hit, and
resumes the target so its loop continues.  Returns the observed hit
index and the updated controller state. -/
def waitForLabel (c : LabelCtl) : Nat × LabelCtl :=
  (c.nextHit, { c with nextHit := c.nextHit + 1 })

/-- The list of hits observed by `n` consecutive `wait_for_label` calls
on the same persistent label. -/
def observeHits : LabelCtl → Nat → List Nat
  | _, 0 => []
  | c, n + 1 =>
    let r := waitForLabel c
    r.1 :: observeHits r.2 n

/-- Modelled from the spec: observable machine state of the halted
target as seen through the debug adapter — a register file (indexed by
register number; r0 = 0 is the return-value register, sp = 13, lr = 14,
pc = 15) and target memory (the call-engine implementation is not part
of the source tree). -/
structure TargetState where
  regs : Nat → Nat
  mem : Nat → Nat

/-- Apply a list of marshaling writes (address, value) to a memory,
in order. -/
def storeList (m : Nat → Nat) (ws : List (Nat × Nat)) : Nat → Nat :=
  ws.foldl (fun acc w => fun a => if a = w.1 then w.2 else acc a) m

/-- Modelled from the spec: the call engine's `invoke` protocol (§4.5).
(1) halt the target (a run-state transition only); (2) marshal the
arguments, scalars into the argument registers r0–r3 and marshaled
values / stack spill as memory writes; (3) save the full register
context; (4) write the synthetic call: pc to the function address,
lr to the reserved trap location; (5) resume until the trap — the
function body `run` executes; (6) read the return value from r0;
(7) restore the saved context exactly.  Returns the return value and
the post-call state. -/
def invoke (s : TargetState) (funcAddr trapAddr : Nat) (argRegs : List Nat)
    (argMemWrites : List (Nat × Nat)) (run : TargetState → TargetState) :
    Nat × TargetState :=
  let saved := s.regs
  let s1 : TargetState :=
    { regs := fun r => if r < 4 then argRegs.getD r (s.regs r) else s.regs r,
      mem := storeList s.mem argMemWrites }
  let s2 : TargetState :=
    { s1 with
      regs := fun r =>
        if r = 15 then funcAddr else if r = 14 then trapAddr else s1.regs r }
  let s3 := run s2
  (s3.regs 0, { regs := saved, mem := s3.mem })

/-- Concrete target state used to exercise the call engine model: a
distinct value in every register and memory cell. -/
def c3State : TargetState := ⟨fun r => r + 100, fun a => 2 * a⟩

/-- Concrete callee behavior used to exercise the call engine model:
writes the return value to r0 and one scratch location at address
201. -/
def c3Run (t : TargetState) : TargetState :=
  { regs := fun r => if r = 0 then 42 else t.regs r,
    mem := fun a => if a = 201 then 7 else t.mem a }

/-- C function `is_le` (template target quicksort source):
`bool is_le(int a, int b)` returns true iff `a <= b`. -/
def is_le (a b : Int) : Bool := decide (a ≤ b)

/-- C function `swap` (template target quicksort source):
`t = *a; *a = *b; *b = t;` on two positions of an int array, the array
being modelled as a `List Int` indexed by the (nonnegative) C index. -/
def swap (arr : List Int) (a b : Int) : List Int :=
  let t := arr.getD a.toNat 0
  (arr.set a.toNat (arr.getD b.toNat 0)).set b.toNat t

/-- The `for (j = low; j < high; j++)` loop of C function `partition`
(template target quicksort source), followed by the final
`swap(&array[i + 1], &array[high]); return i + 1;`.  `i` and `j` are C
`int`s, so they are `Int` here (`i` starts at `low - 1`, which can be
-1). -/
def partitionLoop (arr : List Int) (pivot i j high : Int) :
    List Int × Int :=
  if j < high then
    if is_le (arr.getD j.toNat 0) pivot then
      partitionLoop (swap arr (i + 1) j) pivot (i + 1) (j + 1) high
    else
      partitionLoop arr pivot i (j + 1) high
  else
    (swap arr (i + 1) high, i + 1)
termination_by (high - j).toNat
decreasing_by all_goals omega

/-- C function `partition` (template target quicksort source): Lomuto
partition of `array[low..high]` with pivot `array[high]`; returns the
updated array and the final pivot position `i + 1`. -/
def partition (arr : List Int) (low high : Int) : List Int × Int :=
  partitionLoop arr (arr.getD high.toNat 0) (low - 1) low high

theorem partitionLoop_snd_bounds (arr : List Int) (pivot i j high : Int)
    (hij : i < j) (hjh : j ≤ high) :
    i + 1 ≤ (partitionLoop arr pivot i j high).2 ∧
    (partitionLoop arr pivot i j high).2 ≤ high := by
  rw [partitionLoop]
  split
  · split
    · have := partitionLoop_snd_bounds (swap arr (i + 1) j) pivot (i + 1)
        (j + 1) high (by omega) (by omega)
      exact ⟨by omega, this.2⟩
    · have := partitionLoop_snd_bounds arr pivot i (j + 1) high
        (by omega) (by omega)
      exact ⟨this.1, this.2⟩
  · exact ⟨le_refl _, by omega⟩
termination_by (high - j).toNat
decreasing_by all_goals omega

theorem partition_snd_bounds (arr : List Int) (low high : Int)
    (h : low < high) :
    low ≤ (partition arr low high).2 ∧ (partition arr low high).2 ≤ high := by
  have := partitionLoop_snd_bounds arr (arr.getD high.toNat 0) (low - 1) low
    high (by omega) (by omega)
  unfold partition
  exact ⟨by omega, this.2⟩

/-- C function `quickSort` (template target quicksort source):
`if (low < high) \x7b pi = partition(...); quickSort(low, pi-1);
quickSort(pi+1, high); \x7d`. -/
def quickSort (arr : List Int) (low high : Int) : List Int :=
  if h : low < high then
    match hp : partition arr low high with
    | (arr2, pp) => quickSort (quickSort arr2 low (pp - 1)) (pp + 1) high
  else
    arr
termination_by (1 + high - low).toNat
decreasing_by
  all_goals
    have hb := partition_snd_bounds arr low high h
    rw [hp] at hb
    simp only at hb
    omega

/-- Value of the modelled int array at C index `k` (reads out of range
or at a negative index return the junk value 0; the verified statements
only rely on in-range indices). -/
def elemAt (arr : List Int) (k : Int) : Int := arr.getD k.toNat 0

/-- The segment `array[low..high]` of the modelled int array, as a
list. -/
def seg (arr : List Int) (low high : Int) : List Int :=
  (arr.drop low.toNat).take (high.toNat + 1 - low.toNat)

mutual
/-- Modelled from the spec: type descriptors of the value marshaler
(the host-side marshaler implementation is not part of the source
tree).  A recursive layout: unsigned little-endian scalars of a given
byte size, native-width (4-byte) pointers, structs with per-field byte
offsets including compiler padding and an explicit total size, and
fixed-size arrays. -/
inductive CType where
  | scalar (size : Nat)
  | pointer
  | cstruct (size : Nat) (fields : FieldList)
  | carray (count : Nat) (elem : CType)

inductive FieldList where
  | nil
  | fcons (off : Nat) (t : CType) (rest : FieldList)
end

mutual
/-- Modelled from the spec: host values handled by the marshaler,
mirroring the shape of `CType`. -/
inductive CValue where
  | scalarV (n : Nat)
  | pointerV (addr : Nat)
  | structV (fields : ValueList)
  | arrayV (elems : ValueList)

inductive ValueList where
  | vnil
  | vcons (v : CValue) (rest : ValueList)
end

/-- Number of values in a `ValueList`. -/
def lengthV : ValueList → Nat
  | .vnil => 0
  | .vcons _ rest => lengthV rest + 1

/-- Byte size of a marshaled `CType` (struct sizes are taken from the
descriptor, never recomputed, since padding is compiler-specific). -/
def CType.sizeBytes : CType → Nat
  | .scalar s => s
  | .pointer => 4
  | .cstruct s _ => s
  | .carray n e => n * e.sizeBytes

/-- Little-endian byte encoding of `n` on `s` bytes. -/
def toLE : Nat → Nat → List Nat
  | 0, _ => []
  | s + 1, n => n % 256 :: toLE s (n / 256)

/-- Little-endian byte decoding. -/
def fromLE : List Nat → Nat
  | [] => 0
  | b :: bs => b + 256 * fromLE bs

/-- Overwrite `bs.length` bytes of `buf` starting at offset `off`. -/
def writeBytes (buf : List Nat) (off : Nat) (bs : List Nat) : List Nat :=
  buf.take off ++ bs ++ buf.drop (off + bs.length)

/-- Read `len` bytes of `buf` starting at offset `off`. -/
def readBytes (buf : List Nat) (off len : Nat) : List Nat :=
  (buf.drop off).take len

mutual
/-- Modelled from the spec: `encode(value, type) → bytes`, honoring
target (little) endianness and per-field offsets; returns `none`
(TypeMismatchError) if the value's shape (field set, element count)
disagrees with the type.  Struct fields are written each at its
descriptor-declared offset into a zero-initialized buffer of the
declared total size, leaving padding bytes alone; array elements are
laid out consecutively. -/
def encode : CValue → CType → Option (List Nat)
  | .scalarV n, .scalar s => some (toLE s n)
  | .pointerV a, .pointer => some (toLE 4 a)
  | .structV vs, .cstruct sz fs => encodeFields vs fs (List.replicate sz 0)
  | .arrayV es, .carray n e =>
    if lengthV es = n then encodeElems es e else none
  | _, _ => none

def encodeFields : ValueList → FieldList → List Nat → Option (List Nat)
  | .vnil, .nil, buf => some buf
  | .vcons v vs, .fcons off t fs, buf =>
    match encode v t with
    | some bs => encodeFields vs fs (writeBytes buf off bs)
    | none => none
  | _, _, _ => none

def encodeElems : ValueList → CType → Option (List Nat)
  | .vnil, _ => some []
  | .vcons v vs, e =>
    match encode v e, encodeElems vs e with
    | some bs, some rest => some (bs ++ rest)
    | _, _ => none
end

mutual
/-- Modelled from the spec: `decode(bytes, type) → value`, the inverse
of `encode`: scalars and pointers are decoded little-endian, struct
fields are read back from their declared offsets (padding bytes are
never consulted), array elements from consecutive chunks. -/
def decode : List Nat → CType → Option CValue
  | bs, .scalar s =>
    if bs.length = s then some (.scalarV (fromLE bs)) else none
  | bs, .pointer =>
    if bs.length = 4 then some (.pointerV (fromLE bs)) else none
  | bs, .cstruct sz fs =>
    if bs.length = sz then
      match decodeFields bs fs with
      | some vs => some (.structV vs)
      | none => none
    else none
  | bs, .carray n e =>
    if bs.length = n * e.sizeBytes then
      match decodeElems bs n e with
      | some vs => some (.arrayV vs)
      | none => none
    else none
termination_by bs t => (sizeOf t, 0)

def decodeFields : List Nat → FieldList → Option ValueList
  | _, .nil => some .vnil
  | bs, .fcons off t fs =>
    match decode (readBytes bs off t.sizeBytes) t, decodeFields bs fs with
    | some v, some vs => some (.vcons v vs)
    | _, _ => none
termination_by bs fs => (sizeOf fs, 0)

def decodeElems : List Nat → Nat → CType → Option ValueList
  | _, 0, _ => some .vnil
  | bs, n + 1, e =>
    match decode (bs.take e.sizeBytes) e,
        decodeElems (bs.drop e.sizeBytes) n e with
    | some v, some vs => some (.vcons v vs)
    | _, _ => none
termination_by bs n e => (sizeOf e, n + 1)
end

mutual
/-- Well-formedness of a type descriptor: struct fields lie at
non-decreasing, non-overlapping offsets and fit (with their padding)
inside the declared total size. -/
def wfType : CType → Bool
  | .scalar _ => true
  | .pointer => true
  | .cstruct sz fs => wfFields 0 sz fs
  | .carray _ e => wfType e

def wfFields : Nat → Nat → FieldList → Bool
  | _, _, .nil => true
  | pos, sz, .fcons off t fs =>
    decide (pos ≤ off) && decide (off + t.sizeBytes ≤ sz) && wfType t
      && wfFields (off + t.sizeBytes) sz fs
end

mutual
/-- Representability of a value in a type: scalar and pointer values
fit in their encoded width, struct and array shapes match the
descriptor. -/
def repOk : CValue → CType → Bool
  | .scalarV n, .scalar s => decide (n < 2 ^ (8 * s))
  | .pointerV a, .pointer => decide (a < 2 ^ 32)
  | .structV vs, .cstruct _ fs => repFields vs fs
  | .arrayV es, .carray n e => decide (lengthV es = n) && repElems es e
  | _, _ => false

def repFields : ValueList → FieldList → Bool
  | .vnil, .nil => true
  | .vcons v vs, .fcons _ t fs => repOk v t && repFields vs fs
  | _, _ => false

def repElems : ValueList → CType → Bool
  | .vnil, _ => true
  | .vcons v vs, e => repOk v e && repElems vs e
end

/-- Type descriptor of the C struct `my_add_t` as compiled for the
32-bit target: `uint8` padding members at offsets 0, 8 and 16,
`uint32` members `a`, `b`, `sum` at their aligned offsets 4, 12 and 20,
total size 24 bytes. -/
def myAddDesc : CType :=
  .cstruct 24 (.fcons 0 (.scalar 1) (.fcons 4 (.scalar 4)
    (.fcons 8 (.scalar 1) (.fcons 12 (.scalar 4)
      (.fcons 16 (.scalar 1) (.fcons 20 (.scalar 4) .nil))))))

/-- A concrete `my_add_t` value with `a = 9`, `b = 12` and arbitrary
padding bytes. -/
def myAddVal : CValue :=
  .structV (.vcons (.scalarV 0xAA) (.vcons (.scalarV 9)
    (.vcons (.scalarV 0xBB) (.vcons (.scalarV 12)
      (.vcons (.scalarV 0xCC) (.vcons (.scalarV 21) .vnil))))))

/-- A fixed array of three native-width pointers. -/
def ptrArrDesc : CType := .carray 3 .pointer

/-- A concrete value of `ptrArrDesc`. -/
def ptrArrVal : CValue :=
  .arrayV (.vcons (.pointerV 0x20000000)
    (.vcons (.pointerV 0x20000004) (.vcons (.pointerV 0) .vnil)))

/-- AAPCS-style argument placement used by the call engine for a call
with more arguments than argument registers: the first four arguments
travel in registers, the remainder is spilled to the stack. -/
def placeArgs (args : List Nat) : List Nat × List Nat :=
  (args.take 4, args.drop 4)

/-- Calling `example_ManyArgs` through the register/stack placement:
the callee reads its six arguments back from the registers and the
stack spill area. -/
def callManyArgs (a b c d e f : Nat) : Nat :=
  let p := placeArgs [a, b, c, d, e, f]
  example_ManyArgs (p.1.getD 0 0) (p.1.getD 1 0) (p.1.getD 2 0)
    (p.1.getD 3 0) (p.2.getD 0 0) (p.2.getD 1 0)

theorem alignUp_ge (n al : Nat) : n ≤ alignUp n al := by
  unfold alignUp
  split
  · exact le_refl n
  · rename_i h
    have hpos : 0 < al := Nat.pos_of_ne_zero h
    have h1 := Nat.div_add_mod (n + al - 1) al
    have h2 : (n + al - 1) % al < al := Nat.mod_lt _ hpos
    have h3 : al * ((n + al - 1) / al) = (n + al - 1) / al * al :=
      Nat.mul_comm _ _
    omega

theorem alignUp_mono {n m : Nat} (al : Nat) (h : n ≤ m) :
    alignUp n al ≤ alignUp m al := by
  unfold alignUp
  split
  · exact h
  · exact Nat.mul_le_mul_right al
      (Nat.div_le_div_right (by omega))

theorem allocRun_budget (st : Prestack) (reqs : List (Nat × Nat)) :
    (allocRun st reqs).budget = st.budget := by
  induction reqs generalizing st with
  | nil => rfl
  | cons r rest ih =>
    unfold allocRun
    cases hr : allocPrestack st r.1 r.2 with
    | ok p =>
      rw [ih]
      unfold allocPrestack at hr
      split at hr
      · cases hr; rfl
      · cases hr
    | error e => exact ih st

theorem allocRun_cursor (st : Prestack) (reqs : List (Nat × Nat)) :
    st.cursor ≤ (allocRun st reqs).cursor := by
  induction reqs generalizing st with
  | nil => exact le_refl _
  | cons r rest ih =>
    unfold allocRun
    cases hr : allocPrestack st r.1 r.2 with
    | ok p =>
      refine le_trans ?_ (ih p.2)
      unfold allocPrestack at hr
      split at hr
      · cases hr
        exact le_trans (alignUp_ge st.cursor r.2) (by simp)
      · cases hr
    | error e => exact ih st

/-- Claim C4: under PRESTACK, a request that would exceed the byte budget
fails with `OutOfMemoryError`; a successful allocation advances the
cursor monotonically, never wraps, and stays inside the fixed-size
region; and exhaustion is non-recoverable: once a request fails with
`OutOfMemoryError`, the same request still fails after any further
sequence of allocations (there is no compaction or reuse). -/
theorem allocPrestack_spec (st : Prestack) (size al : Nat) :
    (st.budget < alignUp st.cursor al + size →
      allocPrestack st size al = .error .outOfMemory) ∧
    (∀ addr st2, allocPrestack st size al = .ok (addr, st2) →
      st2.budget = st.budget ∧ st.cursor ≤ addr ∧
      st2.cursor = addr + size ∧ st2.cursor ≤ st.budget) ∧
    (allocPrestack st size al = .error .outOfMemory →
      ∀ reqs : List (Nat × Nat),
        allocPrestack (allocRun st reqs) size al = .error .outOfMemory) := by
  refine ⟨?_, ?_, ?_⟩
  · intro h
    unfold allocPrestack
    split
    · omega
    · rfl
  · intro addr st2 h
    unfold allocPrestack at h
    split at h
    · cases h
      exact ⟨rfl, le_trans (alignUp_ge st.cursor al) (by simp), rfl, by assumption⟩
    · cases h
  · intro h reqs
    have hbud := allocRun_budget st reqs
    have hcur := allocRun_cursor st reqs
    unfold allocPrestack at h ⊢
    split at h
    · cases h
    · split
      · rename_i hle hle2
        rw [hbud] at hle2
        exact absurd (le_trans (Nat.add_le_add_right
          (alignUp_mono al hcur) size) hle2) hle
      · rfl

/-- Witness for claim C4: a 16-byte budget with 12 bytes consumed; an
8-byte request fails with `OutOfMemoryError`, and still fails after a
further allocation attempt. -/
theorem allocPrestack_spec_witness :
    allocPrestack ⟨16, 12⟩ 8 4 = .error .outOfMemory ∧
    allocPrestack (allocRun ⟨16, 12⟩ [(2, 1)]) 8 4 = .error .outOfMemory :=
  ⟨(allocPrestack_spec ⟨16, 12⟩ 8 4).1 (by decide),
   (allocPrestack_spec ⟨16, 12⟩ 8 4).2.2
     ((allocPrestack_spec ⟨16, 12⟩ 8 4).1 (by decide)) [(2, 1)]⟩

/-- Claim C6: `n` consecutive `wait_for_label` calls on a persistent
label observe exactly the target's next `n` arrivals in arrival order
(`range' c.nextHit n`), and the observed hits are strictly increasing
and duplicate-free. -/
theorem observeHits_spec (c : LabelCtl) (n : Nat) :
    observeHits c n = List.range' c.nextHit n ∧
    (observeHits c n).length = n ∧
    List.Pairwise (· < ·) (observeHits c n) ∧
    (observeHits c n).Nodup := by
  have key : ∀ (m : Nat) (d : LabelCtl), observeHits d m = List.range' d.nextHit m := by
    intro m
    induction m with
    | zero => intro d; rfl
    | succ k ih =>
      intro d
      show d.nextHit :: observeHits ⟨d.nextHit + 1⟩ k = _
      rw [ih ⟨d.nextHit + 1⟩]
      rfl
  refine ⟨key n c, ?_, ?_, ?_⟩
  · rw [key n c]; exact List.length_range' _ _ _
  · rw [key n c]; exact List.pairwise_lt_range' _ _
  · rw [key n c]; exact List.nodup_range' _ _

theorem storeList_notin (m : Nat → Nat) (ws : List (Nat × Nat)) (a : Nat)
    (h : ∀ w ∈ ws, a ≠ w.1) : storeList m ws a = m a := by
  induction ws generalizing m with
  | nil => rfl
  | cons w rest ih =>
    show storeList (fun x => if x = w.1 then w.2 else m x) rest a = m a
    rw [ih _ fun v hv => h v (List.mem_cons_of_mem w hv)]
    exact if_neg (h w (List.mem_cons_self w rest))

/-- Claim C3: after `invoke` returns, every register is bit-identical to
its pre-call value, and every memory location outside the set `W` of
locations logically part of the call (the marshaled-argument area and
the locations the callee may touch for arguments/return value) is
bit-identical to its pre-call value: the saved context is restored
exactly and the synthetic call is observationally transparent. -/
theorem invoke_transparent (s : TargetState) (funcAddr trapAddr : Nat)
    (argRegs : List Nat) (argMemWrites : List (Nat × Nat))
    (run : TargetState → TargetState) (W : Set Nat)
    (hargs : ∀ w ∈ argMemWrites, w.1 ∈ W)
    (hrun : ∀ (t : TargetState) (a : Nat), a ∉ W → (run t).mem a = t.mem a) :
    (∀ r, (invoke s funcAddr trapAddr argRegs argMemWrites run).2.regs r
        = s.regs r) ∧
    ∀ a, a ∉ W →
      (invoke s funcAddr trapAddr argRegs argMemWrites run).2.mem a
        = s.mem a := by
  constructor
  · intro r
    rfl
  · intro a ha
    show (run _).mem a = s.mem a
    rw [hrun _ a ha]
    exact storeList_notin s.mem argMemWrites a fun w hw heq => by
      exact ha (heq ▸ hargs w hw)

/-- Witness for claim C3: a concrete call whose argument area is
addresses 200–201; all registers and all other memory are restored. -/
theorem invoke_transparent_witness :
    (∀ r, (invoke c3State 0x100 0xF0 [31, 11] [(200, 5)] c3Run).2.regs r
        = c3State.regs r) ∧
    ∀ a, a ∉ { x : Nat | 200 ≤ x ∧ x ≤ 201 } →
      (invoke c3State 0x100 0xF0 [31, 11] [(200, 5)] c3Run).2.mem a
        = c3State.mem a :=
  invoke_transparent c3State 0x100 0xF0 [31, 11] [(200, 5)] c3Run
    { x : Nat | 200 ≤ x ∧ x ≤ 201 }
    (by intro w hw; simp at hw; simp [hw])
    (by
      intro t a ha
      simp only [Set.mem_setOf_eq, not_and, not_le] at ha
      have : a ≠ 201 := by
        intro h
        subst h
        omega
      simp [c3Run, this])

theorem getD_set_eq (l : List Int) (i : Nat) (x : Int)
    (h : i < l.length) : (l.set i x).getD i 0 = x := by
  simp [List.getD_eq_getElem?_getD, List.getElem?_set_self',
    List.getElem?_eq_getElem h]

theorem getD_set_ne (l : List Int) (i j : Nat) (x : Int)
    (h : i ≠ j) : (l.set i x).getD j 0 = l.getD j 0 := by
  simp [List.getD_eq_getElem?_getD, List.getElem?_set_ne h]

theorem swap_length (arr : List Int) (a b : Int) :
    (swap arr a b).length = arr.length := by
  simp [swap]

theorem elemAt_swap_fst (arr : List Int) (a b : Int)
    (ha : a.toNat < arr.length) (hb : b.toNat < arr.length) :
    elemAt (swap arr a b) a = elemAt arr b := by
  unfold elemAt swap
  by_cases hab : a.toNat = b.toNat
  · rw [hab, getD_set_eq _ _ _ (by simpa using hb)]
  · rw [getD_set_ne _ _ _ _ fun h => hab h.symm, getD_set_eq _ _ _ ha]

theorem elemAt_swap_snd (arr : List Int) (a b : Int)
    (hb : b.toNat < arr.length) :
    elemAt (swap arr a b) b = elemAt arr a := by
  unfold elemAt swap
  rw [getD_set_eq _ _ _ (by simpa using hb)]

theorem elemAt_swap_other (arr : List Int) (a b k : Int)
    (hka : k.toNat ≠ a.toNat) (hkb : k.toNat ≠ b.toNat) :
    elemAt (swap arr a b) k = elemAt arr k := by
  unfold elemAt swap
  rw [getD_set_ne _ _ _ _ fun h => hkb h.symm,
    getD_set_ne _ _ _ _ fun h => hka h.symm]

theorem set_multiset (l : List Int) (i : Nat) (x : Int)
    (h : i < l.length) :
    ((l.set i x : List Int) : Multiset Int) + {l.getD i 0} =
      (l : Multiset Int) + {x} := by
  have hdec : l.set i x = l.take i ++ x :: l.drop (i + 1) :=
    List.set_eq_take_cons_drop x h
  have hl : l = l.take i ++ l[i] :: l.drop (i + 1) := by
    conv_lhs => rw [(List.take_append_drop i l).symm]
    rw [← List.getElem_cons_drop l i h]
  have hget : l.getD i 0 = l[i] := by
    simp [List.getD_eq_getElem?_getD, List.getElem?_eq_getElem h]
  rw [hdec, hget]
  conv_rhs => rw [hl]
  show ((l.take i : List Int) : Multiset Int)
        + (x ::ₘ (l.drop (i + 1) : List Int)) + {l[i]}
      = ((l.take i : List Int) : Multiset Int)
        + (l[i] ::ₘ (l.drop (i + 1) : List Int)) + {x}
  simp only [← Multiset.singleton_add]
  abel

theorem swap_multiset (arr : List Int) (a b : Int)
    (ha : a.toNat < arr.length) (hb : b.toNat < arr.length) :
    ((swap arr a b : List Int) : Multiset Int) = (arr : Multiset Int) := by
  unfold swap
  have h1 := set_multiset arr a.toNat (arr.getD b.toNat 0) ha
  have h2 := set_multiset (arr.set a.toNat (arr.getD b.toNat 0)) b.toNat
    (arr.getD a.toNat 0) (by simpa using hb)
  have hS1b : (arr.set a.toNat (arr.getD b.toNat 0)).getD b.toNat 0
      = arr.getD b.toNat 0 := by
    by_cases hab : a.toNat = b.toNat
    · rw [← hab]
      exact getD_set_eq _ _ _ ha
    · exact getD_set_ne _ _ _ _ hab
  rw [hS1b] at h2
  exact add_right_cancel (h2.trans h1)

theorem partitionLoop_spec (arr : List Int) (pivot low i j high : Int)
    (hlen : high.toNat < arr.length) (hlow : 0 ≤ low) (hli : low ≤ i + 1)
    (hij : i < j) (hjh : j ≤ high)
    (H1 : ∀ k : Int, low ≤ k → k ≤ i → elemAt arr k ≤ pivot)
    (H2 : ∀ k : Int, i < k → k < j → pivot < elemAt arr k)
    (H3 : elemAt arr high = pivot) :
    (partitionLoop arr pivot i j high).1.length = arr.length ∧
    ((partitionLoop arr pivot i j high).1 : Multiset Int)
      = (arr : Multiset Int) ∧
    (∀ k : Int, 0 ≤ k → (k < i + 1 ∨ high < k) →
      elemAt (partitionLoop arr pivot i j high).1 k = elemAt arr k) ∧
    (∀ k : Int, low ≤ k → k < (partitionLoop arr pivot i j high).2 →
      elemAt (partitionLoop arr pivot i j high).1 k ≤ pivot) ∧
    elemAt (partitionLoop arr pivot i j high).1
      (partitionLoop arr pivot i j high).2 = pivot ∧
    (∀ k : Int, (partitionLoop arr pivot i j high).2 < k → k ≤ high →
      pivot < elemAt (partitionLoop arr pivot i j high).1 k) := by
  have hi0 : 0 ≤ i + 1 := by omega
  have hj0 : 0 ≤ j := by omega
  rw [partitionLoop]
  split
  · rename_i hjlt
    split
    · rename_i hle
      have hle' : elemAt arr j ≤ pivot := by
        simpa [is_le, elemAt] using hle
      have hlenj : j.toNat < arr.length := by omega
      have hleni : (i + 1).toNat < arr.length := by omega
      have hlen' : high.toNat < (swap arr (i + 1) j).length := by
        rw [swap_length]; exact hlen
      have H1' : ∀ k : Int, low ≤ k → k ≤ i + 1 →
          elemAt (swap arr (i + 1) j) k ≤ pivot := by
        intro k hk1 hk2
        by_cases hk : k = i + 1
        · subst hk
          rw [elemAt_swap_fst _ _ _ hleni hlenj]
          exact hle'
        · rw [elemAt_swap_other _ _ _ _ (by omega) (by omega)]
          exact H1 k hk1 (by omega)
      have H2' : ∀ k : Int, i + 1 < k → k < j + 1 →
          pivot < elemAt (swap arr (i + 1) j) k := by
        intro k hk1 hk2
        by_cases hk : k = j
        · subst hk
          rw [elemAt_swap_snd _ _ _ hlenj]
          exact H2 (i + 1) (by omega) (by omega)
        · rw [elemAt_swap_other _ _ _ _ (by omega) (by omega)]
          exact H2 k (by omega) (by omega)
      have H3' : elemAt (swap arr (i + 1) j) high = pivot := by
        rw [elemAt_swap_other _ _ _ _ (by omega) (by omega)]
        exact H3
      obtain ⟨L, M, U, B1, B2, B3⟩ := partitionLoop_spec (swap arr (i + 1) j)
        pivot low (i + 1) (j + 1) high hlen' hlow (by omega) (by omega)
        (by omega) H1' H2' H3'
      refine ⟨?_, ?_, ?_, B1, B2, B3⟩
      · rw [L, swap_length]
      · rw [M, swap_multiset _ _ _ hleni hlenj]
      · intro k hk0 hk
        rw [U k hk0 (by omega)]
        exact elemAt_swap_other _ _ _ _ (by omega) (by omega)
    · rename_i hnle
      have hgt : pivot < elemAt arr j := by
        have h' := hnle
        simp only [is_le, decide_eq_true_eq, not_le] at h'
        simpa [elemAt, List.getD_eq_getElem?_getD] using h'
      have H2' : ∀ k : Int, i < k → k < j + 1 → pivot < elemAt arr k := by
        intro k hk1 hk2
        by_cases hk : k = j
        · subst hk; exact hgt
        · exact H2 k hk1 (by omega)
      obtain ⟨L, M, U, B1, B2, B3⟩ := partitionLoop_spec arr pivot low i
        (j + 1) high hlen hlow hli (by omega) (by omega) H1 H2' H3
      exact ⟨L, M, U, B1, B2, B3⟩
  · rename_i hnlt
    have hjeq : j = high := by omega
    subst hjeq
    have hleni : (i + 1).toNat < arr.length := by omega
    refine ⟨?_, ?_, ?_, ?_, ?_, ?_⟩
    · exact swap_length _ _ _
    · exact swap_multiset _ _ _ hleni hlen
    · intro k hk0 hk
      exact elemAt_swap_other _ _ _ _ (by omega) (by omega)
    · intro k hk1 hk2
      simp only at hk2
      rw [elemAt_swap_other _ _ _ _ (by omega) (by omega)]
      exact H1 k hk1 (by omega)
    · simp only
      rw [elemAt_swap_fst _ _ _ hleni hlen]
      exact H3
    · intro k hk1 hk2
      simp only at hk1
      by_cases hk : k = j
      · subst hk
        rw [elemAt_swap_snd _ _ _ hlen]
        exact H2 (i + 1) (by omega) (by omega)
      · rw [elemAt_swap_other _ _ _ _ (by omega) (by omega)]
        exact H2 k (by omega) (by omega)
termination_by (high - j).toNat
decreasing_by all_goals omega

theorem take_eq_of_getD {α : Type} (d : α) (a b : List α) (n : Nat)
    (hl : a.length = b.length)
    (h : ∀ m : Nat, m < n → a.getD m d = b.getD m d) :
    a.take n = b.take n := by
  apply List.ext_getElem?
  intro m
  rw [List.getElem?_take, List.getElem?_take]
  split
  · rename_i hmn
    by_cases hm : m < a.length
    · have hv := h m hmn
      rw [List.getD_eq_getElem a d hm, List.getD_eq_getElem b d (hl ▸ hm)] at hv
      rw [List.getElem?_eq_getElem hm, List.getElem?_eq_getElem (hl ▸ hm), hv]
    · rw [List.getElem?_eq_none (by omega), List.getElem?_eq_none (by omega)]
  · rfl

theorem drop_eq_of_getD {α : Type} (d : α) (a b : List α) (n : Nat)
    (hl : a.length = b.length)
    (h : ∀ m : Nat, n ≤ m → a.getD m d = b.getD m d) :
    a.drop n = b.drop n := by
  apply List.ext_getElem?
  intro m
  rw [List.getElem?_drop, List.getElem?_drop]
  by_cases hm : n + m < a.length
  · have hv := h (n + m) (by omega)
    rw [List.getD_eq_getElem a d hm, List.getD_eq_getElem b d (hl ▸ hm)] at hv
    rw [List.getElem?_eq_getElem hm, List.getElem?_eq_getElem (hl ▸ hm), hv]
  · rw [List.getElem?_eq_none (by omega), List.getElem?_eq_none (by omega)]

theorem seg_decomp (l : List Int) (low high : Int)
    (h : low.toNat ≤ high.toNat + 1) :
    l = l.take low.toNat ++ (seg l low high ++ l.drop (high.toNat + 1)) := by
  unfold seg
  conv_lhs => rw [← List.take_append_drop low.toNat l]
  congr 1
  conv_lhs => rw [← List.take_append_drop (high.toNat + 1 - low.toNat)
    (l.drop low.toNat)]
  congr 1
  rw [List.drop_drop]
  congr 1
  omega

theorem seg_multiset_eq (a b : List Int) (low high : Int)
    (hl : a.length = b.length)
    (hm : (b : Multiset Int) = (a : Multiset Int))
    (hout : ∀ k : Int, 0 ≤ k → (k < low ∨ high < k) →
      elemAt b k = elemAt a k)
    (hlow : 0 ≤ low) (hlh : low ≤ high) :
    ((seg b low high : List Int) : Multiset Int)
      = ((seg a low high : List Int) : Multiset Int) := by
  have htake : b.take low.toNat = a.take low.toNat := by
    apply take_eq_of_getD (0 : Int) b a low.toNat hl.symm
    intro m hmlt
    have := hout (m : Int) (by omega) (Or.inl (by omega))
    simpa [elemAt] using this
  have hdrop : b.drop (high.toNat + 1) = a.drop (high.toNat + 1) := by
    apply drop_eq_of_getD (0 : Int) b a _ hl.symm
    intro m hmge
    have := hout (m : Int) (by omega) (Or.inr (by omega))
    simpa [elemAt] using this
  have hdb := seg_decomp b low high (by omega)
  have hda := seg_decomp a low high (by omega)
  have hb' : (b : Multiset Int) = (a.take low.toNat : List Int)
      + (((seg b low high : List Int) : Multiset Int)
        + (a.drop (high.toNat + 1) : List Int)) := by
    conv_lhs => rw [hdb, htake, hdrop]
    rfl
  have ha' : (a : Multiset Int) = (a.take low.toNat : List Int)
      + (((seg a low high : List Int) : Multiset Int)
        + (a.drop (high.toNat + 1) : List Int)) := by
    conv_lhs => rw [hda]
    rfl
  have hkey := hb'.symm.trans (hm.trans ha')
  exact add_right_cancel (add_left_cancel hkey)

theorem elemAt_mem_seg (a : List Int) (low high k : Int)
    (hlow : 0 ≤ low) (hk1 : low ≤ k) (hk2 : k ≤ high)
    (hlen : high.toNat < a.length) :
    elemAt a k ∈ seg a low high := by
  have hkN : k.toNat < a.length := by omega
  rw [List.mem_iff_getElem?]
  refine ⟨k.toNat - low.toNat, ?_⟩
  unfold seg
  rw [List.getElem?_take, if_pos (by omega), List.getElem?_drop,
    show low.toNat + (k.toNat - low.toNat) = k.toNat from by omega,
    List.getElem?_eq_getElem hkN]
  simp [elemAt, List.getD_eq_getElem?_getD, List.getElem?_eq_getElem hkN]

theorem mem_seg_elemAt (a : List Int) (low high x : Int)
    (hlow : 0 ≤ low) (hlh : low ≤ high)
    (hx : x ∈ seg a low high) :
    ∃ k : Int, low ≤ k ∧ k ≤ high ∧ elemAt a k = x := by
  rw [List.mem_iff_getElem] at hx
  obtain ⟨m, hm, hEq⟩ := hx
  have hseg_len : (seg a low high).length
      = min (high.toNat + 1 - low.toNat) (a.length - low.toNat) := by
    simp [seg, List.length_take, List.length_drop]
  rw [hseg_len] at hm
  have hidx : low.toNat + m < a.length := by omega
  refine ⟨((low.toNat + m : Nat) : Int), by omega, by omega, ?_⟩
  have h? : (seg a low high)[m]? = a[low.toNat + m]? := by
    simp only [seg]
    rw [List.getElem?_take, if_pos (by omega), List.getElem?_drop]
  have h1 : (seg a low high)[m]? = some x := by
    rw [List.getElem?_eq_getElem (by rw [hseg_len]; exact hm), hEq]
  have h2 : a[low.toNat + m]? = some x := by rw [← h?]; exact h1
  simp only [elemAt, Int.toNat_natCast]
  rw [List.getD_eq_getElem?_getD, h2]
  rfl

theorem elemAt_seg_transport (a b : List Int) (low high : Int)
    (P : Int → Prop) (hlow : 0 ≤ low)
    (hl : a.length = b.length) (hlen : high.toNat < a.length)
    (hm : (b : Multiset Int) = (a : Multiset Int))
    (hout : ∀ k : Int, 0 ≤ k → (k < low ∨ high < k) →
      elemAt b k = elemAt a k)
    (hP : ∀ k : Int, low ≤ k → k ≤ high → P (elemAt a k)) :
    ∀ k : Int, low ≤ k → k ≤ high → P (elemAt b k) := by
  intro k hk1 hk2
  have hlh : low ≤ high := le_trans hk1 hk2
  have hmem : elemAt b k ∈ seg b low high :=
    elemAt_mem_seg b low high k hlow hk1 hk2 (by omega)
  have hms := seg_multiset_eq a b low high hl hm hout hlow hlh
  have hmem' : elemAt b k ∈ seg a low high := by
    have hc : elemAt b k ∈ ((seg b low high : List Int) : Multiset Int) :=
      Multiset.mem_coe.mpr hmem
    rw [hms] at hc
    exact Multiset.mem_coe.mp hc
  obtain ⟨q, hq1, hq2, hqEq⟩ := mem_seg_elemAt a low high _ hlow hlh hmem'
  rw [← hqEq]
  exact hP q hq1 hq2

theorem partition_spec (arr : List Int) (low high : Int)
    (hlow : 0 ≤ low) (hlh : low < high) (hlen : high.toNat < arr.length) :
    (partition arr low high).1.length = arr.length ∧
    ((partition arr low high).1 : Multiset Int) = (arr : Multiset Int) ∧
    (∀ k : Int, 0 ≤ k → (k < low ∨ high < k) →
      elemAt (partition arr low high).1 k = elemAt arr k) ∧
    low ≤ (partition arr low high).2 ∧
    (partition arr low high).2 ≤ high ∧
    (∀ k : Int, low ≤ k → k < (partition arr low high).2 →
      elemAt (partition arr low high).1 k
        ≤ elemAt (partition arr low high).1 (partition arr low high).2) ∧
    (∀ k : Int, (partition arr low high).2 < k → k ≤ high →
      elemAt (partition arr low high).1 (partition arr low high).2
        < elemAt (partition arr low high).1 k) := by
  have hbnd := partitionLoop_snd_bounds arr (arr.getD high.toNat 0)
    (low - 1) low high (by omega) (by omega)
  obtain ⟨L, M, U, B1, B2, B3⟩ := partitionLoop_spec arr
    (arr.getD high.toNat 0) low (low - 1) low high hlen hlow (by omega)
    (by omega) (by omega)
    (fun k hk1 hk2 => absurd hk2 (by omega))
    (fun k hk1 hk2 => absurd hk1 (by omega))
    rfl
  unfold partition
  refine ⟨L, M, ?_, by omega, by omega, ?_, ?_⟩
  · intro k hk0 hk
    exact U k hk0 (by omega)
  · intro k hk1 hk2
    rw [B2]
    exact B1 k hk1 hk2
  · intro k hk1 hk2
    rw [B2]
    exact B3 k hk1 hk2

theorem quickSort_main (arr : List Int) (low high : Int) (hlow : 0 ≤ low)
    (hlen : high < (arr.length : Int)) :
    (quickSort arr low high).length = arr.length ∧
    ((quickSort arr low high : List Int) : Multiset Int)
      = (arr : Multiset Int) ∧
    (∀ k : Int, 0 ≤ k → (k < low ∨ high < k) →
      elemAt (quickSort arr low high) k = elemAt arr k) ∧
    (∀ k1 k2 : Int, low ≤ k1 → k1 ≤ k2 → k2 ≤ high →
      elemAt (quickSort arr low high) k1
        ≤ elemAt (quickSort arr low high) k2) := by
  rw [quickSort]
  split
  · rename_i h
    split
    rename_i arr2 pp hp
    have hlenN : high.toNat < arr.length := by omega
    have P := partition_spec arr low high hlow h hlenN
    rw [hp] at P
    simp only at P
    obtain ⟨PL, PM, PU, Plo, Phi, PB1, PB2⟩ := P
    have hlen2 : ((arr2.length : Nat) : Int) = (arr.length : Int) := by
      rw [PL]
    have IH1 := quickSort_main arr2 low (pp - 1) hlow (by omega)
    obtain ⟨L1, M1, U1, S1⟩ := IH1
    have hlenr1 : (quickSort arr2 low (pp - 1)).length = arr.length := by
      rw [L1, PL]
    have IH2 := quickSort_main (quickSort arr2 low (pp - 1)) (pp + 1) high
      (by omega) (by rw [hlenr1]; omega)
    obtain ⟨L2, M2, U2, S2⟩ := IH2
    have pivotF : elemAt (quickSort (quickSort arr2 low (pp - 1)) (pp + 1)
        high) pp = elemAt arr2 pp := by
      rw [U2 pp (by omega) (by omega), U1 pp (by omega) (by omega)]
    have boundL : ∀ k : Int, low ≤ k → k ≤ pp - 1 →
        elemAt (quickSort (quickSort arr2 low (pp - 1)) (pp + 1) high) k
          ≤ elemAt arr2 pp := by
      intro k hk1 hk2
      have hLa : elemAt (quickSort (quickSort arr2 low (pp - 1)) (pp + 1)
          high) k = elemAt (quickSort arr2 low (pp - 1)) k :=
        U2 k (by omega) (by omega)
      rw [hLa]
      refine elemAt_seg_transport arr2 (quickSort arr2 low (pp - 1)) low
        (pp - 1) (fun v => v ≤ elemAt arr2 pp) hlow L1.symm (by omega)
        M1 ?_ ?_ k hk1 hk2
      · intro q hq0 hq
        exact U1 q hq0 hq
      · intro q hq1 hq2
        exact PB1 q hq1 (by omega)
    have boundR : ∀ k : Int, pp + 1 ≤ k → k ≤ high →
        elemAt arr2 pp < elemAt (quickSort (quickSort arr2 low (pp - 1))
          (pp + 1) high) k := by
      have hmid : ∀ k : Int, pp + 1 ≤ k → k ≤ high →
          elemAt arr2 pp < elemAt (quickSort arr2 low (pp - 1)) k := by
        intro k hk1 hk2
        rw [U1 k (by omega) (by omega)]
        exact PB2 k (by omega) hk2
      intro k hk1 hk2
      refine elemAt_seg_transport (quickSort arr2 low (pp - 1))
        (quickSort (quickSort arr2 low (pp - 1)) (pp + 1) high) (pp + 1)
        high (fun v => elemAt arr2 pp < v) (by omega) L2.symm
        (by rw [hlenr1]; omega) M2 ?_ hmid k hk1 hk2
      intro q hq0 hq
      exact U2 q hq0 hq
    refine ⟨?_, ?_, ?_, ?_⟩
    · rw [L2, L1, PL]
    · rw [M2, M1, PM]
    · intro k hk0 hk
      rw [U2 k hk0 (by omega), U1 k hk0 (by omega), PU k hk0 hk]
    · intro k1 k2 hk1 hk12 hk2
      rcases lt_trichotomy k2 pp with hc2 | hc2 | hc2
      · have e1 : elemAt (quickSort (quickSort arr2 low (pp - 1)) (pp + 1)
            high) k1 = elemAt (quickSort arr2 low (pp - 1)) k1 :=
          U2 k1 (by omega) (by omega)
        have e2 : elemAt (quickSort (quickSort arr2 low (pp - 1)) (pp + 1)
            high) k2 = elemAt (quickSort arr2 low (pp - 1)) k2 :=
          U2 k2 (by omega) (by omega)
        rw [e1, e2]
        exact S1 k1 k2 hk1 hk12 (by omega)
      · subst hc2
        rcases eq_or_lt_of_le hk12 with he | hlt
        · subst he
          exact le_refl _
        · rw [pivotF]
          exact boundL k1 hk1 (by omega)
      · rcases lt_trichotomy k1 pp with hc1 | hc1 | hc1
        · have h1 := boundL k1 hk1 (by omega)
          have h2 := boundR k2 (by omega) hk2
          omega
        · subst hc1
          rw [pivotF]
          exact le_of_lt (boundR k2 (by omega) hk2)
        · exact S2 k1 k2 (by omega) hk12 hk2
  · rename_i h
    refine ⟨rfl, rfl, fun k hk0 hk => rfl, ?_⟩
    intro k1 k2 hk1 hk12 hk2
    have : k1 = k2 := by omega
    subst this
    exact le_refl _
termination_by (1 + high - low).toNat
decreasing_by
  all_goals omega

/-- Claim C9: for every int array and indices `0 ≤ low` and
`high < length`, `quickSort array low high` (a total function, so
termination is by construction) leaves the segment `array[low..high]`
sorted in non-decreasing order, as a permutation (multiset equality) of
its initial contents, and every element outside indices `low..high` — as
well as the array length — is unchanged. -/
theorem quickSort_spec (arr : List Int) (low high : Int)
    (hlow : 0 ≤ low) (hhigh : high < (arr.length : Int)) :
    (quickSort arr low high).length = arr.length ∧
    (∀ k1 k2 : Int, low ≤ k1 → k1 ≤ k2 → k2 ≤ high →
      elemAt (quickSort arr low high) k1
        ≤ elemAt (quickSort arr low high) k2) ∧
    ((seg (quickSort arr low high) low high : List Int) : Multiset Int)
      = ((seg arr low high : List Int) : Multiset Int) ∧
    (∀ k : Int, 0 ≤ k → (k < low ∨ high < k) →
      elemAt (quickSort arr low high) k = elemAt arr k) := by
  obtain ⟨L, M, U, S⟩ := quickSort_main arr low high hlow hhigh
  refine ⟨L, S, ?_, U⟩
  by_cases hlh : low ≤ high
  · exact seg_multiset_eq arr (quickSort arr low high) low high L.symm M U
      hlow hlh
  · have hid : quickSort arr low high = arr := by
      rw [quickSort, dif_neg (by omega)]
    rw [hid]

/-- Witness for claim C9: the 8-element array sorted by the example
firmware's main loop; its hypotheses hold and `quickSort` computes the
sorted array. -/
theorem quickSort_spec_witness :
    quickSort [4, 3, 5, 2, 1, 3, 2, 3] 0 7 = [1, 2, 2, 3, 3, 3, 4, 5] ∧
    (0 : Int) ≤ 0 ∧
    (7 : Int) < (([4, 3, 5, 2, 1, 3, 2, 3] : List Int).length : Int) ∧
    ((quickSort [4, 3, 5, 2, 1, 3, 2, 3] 0 7).length
        = ([4, 3, 5, 2, 1, 3, 2, 3] : List Int).length ∧
      (∀ k1 k2 : Int, 0 ≤ k1 → k1 ≤ k2 → k2 ≤ 7 →
        elemAt (quickSort [4, 3, 5, 2, 1, 3, 2, 3] 0 7) k1
          ≤ elemAt (quickSort [4, 3, 5, 2, 1, 3, 2, 3] 0 7) k2) ∧
      ((seg (quickSort [4, 3, 5, 2, 1, 3, 2, 3] 0 7) 0 7 : List Int)
          : Multiset Int)
        = ((seg [4, 3, 5, 2, 1, 3, 2, 3] 0 7 : List Int) : Multiset Int) ∧
      (∀ k : Int, 0 ≤ k → (k < 0 ∨ 7 < k) →
        elemAt (quickSort [4, 3, 5, 2, 1, 3, 2, 3] 0 7) k
          = elemAt [4, 3, 5, 2, 1, 3, 2, 3] k)) :=
  ⟨by simp [quickSort, partition, partitionLoop, swap, is_le],
   le_refl 0, by norm_num,
   quickSort_spec [4, 3, 5, 2, 1, 3, 2, 3] 0 7 (le_refl 0) (by norm_num)⟩

/-- Claim C2: `example_Addition 31 11 = 42`, and in general
`example_Addition` returns the `uint32` sum of its arguments. -/
theorem example_Addition_spec :
    example_Addition 31 11 = 42 ∧
    ∀ a b : Nat, example_Addition a b = (a + b) % 2 ^ 32 := by
  refine ⟨by decide, fun a b => rfl⟩

/-- Claim C5: for all six `uint32` arguments, `example_ManyArgs` returns
the full sum reduced modulo `2^32`; routing the six arguments through
the register/stack placement (four in registers, two spilled to the
stack) passes them intact, so the call returns the same value. -/
theorem example_ManyArgs_spec :
    ∀ a b c d e f : Nat,
      example_ManyArgs a b c d e f = (a + b + c + d + e + f) % 2 ^ 32 ∧
      callManyArgs a b c d e f = (a + b + c + d + e + f) % 2 ^ 32 := by
  intro a b c d e f
  constructor
  · simp [example_ManyArgs, U32, Nat.mod_add_mod]
  · simp [callManyArgs, placeArgs, example_ManyArgs, U32, Nat.mod_add_mod]

/-- Claim C7: applying `example_AdditionStruct` to a `my_add_t` value with
`a = 9` and `b = 12` returns 21 regardless of the padding bytes, and the
padding bytes of the by-value copy are preserved unchanged across the
call. -/
theorem example_AdditionStruct_spec :
    (∀ pA pB pC s0 : Nat,
      (example_AdditionStruct ⟨pA, 9, pB, 12, pC, s0⟩).1 = 21) ∧
    ∀ ms : my_add_t,
      (example_AdditionStruct ms).2.paddA = ms.paddA ∧
      (example_AdditionStruct ms).2.paddB = ms.paddB ∧
      (example_AdditionStruct ms).2.paddC = ms.paddC := by
  exact ⟨fun _ _ _ _ => rfl, fun ms => ⟨rfl, rfl, rfl⟩⟩

/-- Claim C8: with two `uint32` target variables holding 9 and 12,
`example_AdditionPtr` applied to their addresses returns 21; in general
it returns the `uint32` sum of the two pointed-to values. -/
theorem example_AdditionPtr_spec :
    (∀ addrA addrB : Nat, addrA ≠ addrB →
      example_AdditionPtr
        (fun x => if x = addrA then 9 else if x = addrB then 12 else 0)
        addrA addrB = 21) ∧
    ∀ (mem : Nat → Nat) (a b : Nat),
      example_AdditionPtr mem a b = (mem a + mem b) % 2 ^ 32 := by
  constructor
  · intro addrA addrB hne
    simp [example_AdditionPtr, hne, Ne.symm hne, U32]
  · intro mem a b
    rfl

/-- Witness for claim C8: concrete addresses `0x20000000` and
`0x20000004` holding 9 and 12; the call returns 21. -/
theorem example_AdditionPtr_spec_witness :
    example_AdditionPtr
      (fun x => if x = 0x20000000 then 9 else if x = 0x20000004 then 12 else 0)
      0x20000000 0x20000004 = 21 :=
  example_AdditionPtr_spec.1 0x20000000 0x20000004 (by decide)

/-- Claim C10: `example_FunctionPointers` returns 30 when the global
function pointer `func_a` is `NULL` and `func_a() + 20` (as `uint32`)
otherwise; after `reg_func_ptr_a` (which installs `example_GetA`,
returning 42) it returns 62, and after `reg_func_ptr_null` it returns 30
again. -/
theorem example_FunctionPointers_spec :
    example_FunctionPointers none = 30 ∧
    (∀ f : Unit → Nat,
      example_FunctionPointers (some f) = (f () % 2 ^ 32 + 20) % 2 ^ 32) ∧
    (∀ s : Option (Unit → Nat),
      example_FunctionPointers (reg_func_ptr_a s) = 62) ∧
    ∀ s : Option (Unit → Nat),
      example_FunctionPointers (reg_func_ptr_null s) = 30 := by
  refine ⟨by decide, fun f => rfl, fun s => by norm_num [example_FunctionPointers,
    reg_func_ptr_a, example_GetA, U32], fun s => by
      norm_num [example_FunctionPointers, reg_func_ptr_null, U32]⟩

theorem toLE_length (s n : Nat) : (toLE s n).length = s := by
  induction s generalizing n with
  | zero => rfl
  | succ k ih => simp [toLE, ih]

theorem fromLE_toLE (s n : Nat) (h : n < 2 ^ (8 * s)) :
    fromLE (toLE s n) = n := by
  induction s generalizing n with
  | zero =>
    have : n = 0 := by simpa using h
    simp [this, toLE, fromLE]
  | succ k ih =>
    have hdiv : n / 256 < 2 ^ (8 * k) := by
      rw [Nat.div_lt_iff_lt_mul (by norm_num)]
      calc n < 2 ^ (8 * (k + 1)) := h
        _ = 2 ^ (8 * k) * 256 := by ring
    show n % 256 + 256 * fromLE (toLE k (n / 256)) = n
    rw [ih _ hdiv]
    omega

theorem writeBytes_length (buf : List Nat) (off : Nat) (bs : List Nat)
    (h : off + bs.length ≤ buf.length) :
    (writeBytes buf off bs).length = buf.length := by
  simp [writeBytes]
  omega

theorem getD_nat_drop (l : List Nat) (n m : Nat) :
    (l.drop n).getD m 0 = l.getD (n + m) 0 := by
  rw [List.getD_eq_getElem?_getD, List.getD_eq_getElem?_getD,
    List.getElem?_drop]

theorem readBytes_writeBytes (buf : List Nat) (off : Nat) (bs : List Nat)
    (h : off + bs.length ≤ buf.length) :
    readBytes (writeBytes buf off bs) off bs.length = bs := by
  unfold readBytes writeBytes
  have hto : (buf.take off).length = off := by
    simp
    omega
  rw [List.append_assoc, List.drop_left' hto, List.take_left' rfl]

theorem writeBytes_getD_lt (buf : List Nat) (off : Nat) (bs : List Nat)
    (m : Nat) (hm : m < off) (hoff : off ≤ buf.length) :
    (writeBytes buf off bs).getD m 0 = buf.getD m 0 := by
  unfold writeBytes
  have hto : (buf.take off).length = off := by
    simp
    omega
  rw [List.getD_eq_getElem?_getD, List.append_assoc, List.getElem?_append,
    if_pos (by rw [hto]; exact hm), List.getElem?_take, if_pos hm,
    ← List.getD_eq_getElem?_getD]

theorem readBytes_congr (a b : List Nat) (off len : Nat)
    (hl : a.length = b.length)
    (h : ∀ m : Nat, m < off + len → a.getD m 0 = b.getD m 0) :
    readBytes a off len = readBytes b off len := by
  unfold readBytes
  apply take_eq_of_getD (0 : Nat) _ _ len (by simp [hl])
  intro m hm
  rw [getD_nat_drop, getD_nat_drop]
  exact h (off + m) (by omega)

mutual

theorem roundtrip_val (v : CValue) (t : CType)
    (hwf : wfType t = true) (hrep : repOk v t = true) :
    ∃ bs : List Nat, encode v t = some bs ∧ bs.length = t.sizeBytes ∧
      decode bs t = some v := by
  cases v with
  | scalarV n =>
    cases t with
    | scalar s =>
      simp only [repOk, decide_eq_true_eq] at hrep
      refine ⟨toLE s n, rfl, toLE_length s n, ?_⟩
      simp [decode, toLE_length, fromLE_toLE s n hrep]
    | pointer => simp [repOk] at hrep
    | cstruct sz fs => simp [repOk] at hrep
    | carray n' e => simp [repOk] at hrep
  | pointerV a =>
    cases t with
    | scalar s => simp [repOk] at hrep
    | pointer =>
      simp only [repOk, decide_eq_true_eq] at hrep
      refine ⟨toLE 4 a, rfl, toLE_length 4 a, ?_⟩
      have ha : a < 2 ^ (8 * 4) := by norm_num at hrep ⊢; exact hrep
      simp [decode, toLE_length, fromLE_toLE 4 a ha]
    | cstruct sz fs => simp [repOk] at hrep
    | carray n' e => simp [repOk] at hrep
  | structV vs =>
    cases t with
    | scalar s => simp [repOk] at hrep
    | pointer => simp [repOk] at hrep
    | cstruct sz fs =>
      simp only [wfType] at hwf
      simp only [repOk] at hrep
      obtain ⟨out, henc, hlen, hpres, hdec⟩ := roundtrip_fields vs fs 0 sz
        (List.replicate sz 0) hwf hrep (by simp)
      refine ⟨out, ?_, ?_, ?_⟩
      · simpa [encode] using henc
      · simpa [CType.sizeBytes] using hlen
      · simp [decode, hlen, hdec]
    | carray n' e => simp [repOk] at hrep
  | arrayV es =>
    cases t with
    | scalar s => simp [repOk] at hrep
    | pointer => simp [repOk] at hrep
    | cstruct sz fs => simp [repOk] at hrep
    | carray n e =>
      simp only [repOk, Bool.and_eq_true, decide_eq_true_eq] at hrep
      simp only [wfType] at hwf
      obtain ⟨hn, hre⟩ := hrep
      obtain ⟨out, henc, hlen, hdec⟩ := roundtrip_elems es e hwf hre
      refine ⟨out, ?_, ?_, ?_⟩
      · simp [encode, hn, henc]
      · simp [CType.sizeBytes, hlen, hn]
      · have hlen' : out.length = n * e.sizeBytes := by rw [hlen, hn]
        have hdec' : decodeElems out n e = some es := by rw [← hn]; exact hdec
        simp [decode, hlen', hdec']

theorem roundtrip_fields (vs : ValueList) (fs : FieldList) (pos sz : Nat)
    (buf : List Nat) (hwf : wfFields pos sz fs = true)
    (hrep : repFields vs fs = true) (hbuf : buf.length = sz) :
    ∃ out : List Nat, encodeFields vs fs buf = some out ∧
      out.length = sz ∧
      (∀ m : Nat, m < pos → out.getD m 0 = buf.getD m 0) ∧
      decodeFields out fs = some vs := by
  cases vs with
  | vnil =>
    cases fs with
    | nil =>
      exact ⟨buf, rfl, hbuf, fun m _ => rfl, by simp [decodeFields]⟩
    | fcons off t fs' => simp [repFields] at hrep
  | vcons v vs' =>
    cases fs with
    | nil => simp [repFields] at hrep
    | fcons off t fs' =>
      simp only [wfFields, Bool.and_eq_true, decide_eq_true_eq] at hwf
      obtain ⟨⟨⟨hpos, hfit⟩, hwt⟩, hwfs⟩ := hwf
      simp only [repFields, Bool.and_eq_true] at hrep
      obtain ⟨hrv, hrvs⟩ := hrep
      obtain ⟨bs, henc, hbs, hdec⟩ := roundtrip_val v t hwt hrv
      have hbuf1 : (writeBytes buf off bs).length = sz := by
        rw [writeBytes_length buf off bs (by omega), hbuf]
      obtain ⟨out, henc', hlen', hpres', hdecs'⟩ := roundtrip_fields vs' fs'
        (off + t.sizeBytes) sz (writeBytes buf off bs) hwfs hrvs hbuf1
      refine ⟨out, ?_, hlen', ?_, ?_⟩
      · simp [encodeFields, henc, henc']
      · intro m hm
        rw [hpres' m (by omega)]
        exact writeBytes_getD_lt buf off bs m (by omega) (by omega)
      · have hread : readBytes out off t.sizeBytes = bs := by
          rw [readBytes_congr out (writeBytes buf off bs) off t.sizeBytes
            (by rw [hlen', hbuf1]) (fun m hm => hpres' m hm)]
          rw [← hbs]
          exact readBytes_writeBytes buf off bs (by omega)
        simp [decodeFields, hread, hdec, hdecs']

theorem roundtrip_elems (es : ValueList) (e : CType)
    (hwf : wfType e = true) (hrep : repElems es e = true) :
    ∃ out : List Nat, encodeElems es e = some out ∧
      out.length = lengthV es * e.sizeBytes ∧
      decodeElems out (lengthV es) e = some es := by
  cases es with
  | vnil =>
    exact ⟨[], rfl, by simp [lengthV], by simp [lengthV, decodeElems]⟩
  | vcons v vs =>
    simp only [repElems, Bool.and_eq_true] at hrep
    obtain ⟨hrv, hrvs⟩ := hrep
    obtain ⟨bs, henc, hbs, hdec⟩ := roundtrip_val v e hwf hrv
    obtain ⟨rest, henc', hlen', hdec'⟩ := roundtrip_elems vs e hwf hrvs
    refine ⟨bs ++ rest, ?_, ?_, ?_⟩
    · simp [encodeElems, henc, henc']
    · simp only [List.length_append, hbs, hlen', lengthV]
      ring
    · have htk : (bs ++ rest).take e.sizeBytes = bs := by
        rw [← hbs]
        exact List.take_left _ _
      have hdp : (bs ++ rest).drop e.sizeBytes = rest := by
        rw [← hbs]
        exact List.drop_left _ _
      simp [lengthV, decodeElems, htk, hdp, hdec, hdec']

end

/-- Claim C1: for every supported type `T` (scalars, pointers, padded
structs, fixed arrays) with a well-formed layout descriptor and every
value `v` representable in `T`, decoding the encoding of `v` at `T`
yields `v` back: `decode (encode v T) T = some v`, so encode followed
by decode is the identity on representable values. -/
theorem marshal_roundtrip (t : CType) (v : CValue)
    (hwf : wfType t = true) (hrep : repOk v t = true) :
    (encode v t).bind (fun bs => decode bs t) = some v := by
  obtain ⟨bs, henc, _, hdec⟩ := roundtrip_val v t hwf hrep
  rw [henc]
  exact hdec

/-- Witness for claim C1: the round trip holds at the padded-struct
descriptor of `my_add_t` with `a = 9`, `b = 12`, and at a fixed array
of three pointers. -/
theorem marshal_roundtrip_witness :
    wfType myAddDesc = true ∧ repOk myAddVal myAddDesc = true ∧
    (encode myAddVal myAddDesc).bind (fun bs => decode bs myAddDesc)
      = some myAddVal ∧
    (encode ptrArrVal ptrArrDesc).bind (fun bs => decode bs ptrArrDesc)
      = some ptrArrVal :=
  ⟨by decide, by decide,
   marshal_roundtrip myAddDesc myAddVal (by decide) (by decide),
   marshal_roundtrip ptrArrDesc ptrArrVal (by decide) (by decide)⟩

end Dott
